import Mathlib

/-!
# Verification of the agent-timecard session pipeline

A shallow embedding of the core pipeline of the agent-timecard repository
(`sessions.py`, `daily_report.py`) and proofs about it.

Python strings are embedded as `List Char` (a Python `str` is a sequence of
code points), Python `dict`s with a fixed shape as structures, Python `dict`s
used as counters as association lists updated in insertion order (matching
CPython's ordered dicts), and external subprocess calls (the `claude` CLI
"oracle") as explicit parameters of type `Except`: `.ok out` is a completed
process with stdout `out`, `.error e` is a raised exception `e`.  Fallible
code propagates errors through `Except`.
-/

namespace AgentTimecard

/-- A Python string, as a sequence of characters. -/
abbrev Str := List Char

/-- The characters removed by Python's `str.strip()` (ASCII whitespace). -/
def pySpace (c : Char) : Bool :=
  c = ' ' || c = '\t' || c = '\n' || c = '\r' || c = '\x0b' || c = '\x0c'

/-- Python `s.lstrip()`. -/
def lstrip (s : Str) : Str := s.dropWhile pySpace

/-- Python `s.rstrip()`. -/
def rstrip (s : Str) : Str := (s.reverse.dropWhile pySpace).reverse

/-- Python `s.strip()`. -/
def pyStrip (s : Str) : Str := rstrip (lstrip s)

/-- Python `s.strip(cs)`: strip any of the characters of `cs` from both ends. -/
def stripChars (cs : Str) (s : Str) : Str :=
  ((s.dropWhile (cs.contains ·)).reverse.dropWhile (cs.contains ·)).reverse

/-- Python `s.upper()` (on the ASCII range that the tag vocabulary uses). -/
def pyUpper (s : Str) : Str := s.map Char.toUpper

/-! ## Turns and chunking (`sessions.py`, `chunk_conversation`) -/

/-- One conversation turn: the dicts `{"role": ..., "text": ...}` that
`chunk_conversation` and `summarize_and_tag_chunk` consume. -/
structure Msg where
  role : Str
  text : Str
deriving DecidableEq

/-- The truncation suffix appended to an oversized turn in
`chunk_conversation`. -/
def truncSuffix : Str := "...[truncated]".toList

/-- The rewriting `chunk_conversation` applies to a single turn: a turn whose
text exceeds the budget is cut to `maxChars` characters and the suffix marker
is appended; any other turn is left alone. -/
def truncMsg (maxChars : Nat) (m : Msg) : Msg :=
  if maxChars < m.text.length then
    { role := m.role, text := m.text.take maxChars ++ truncSuffix }
  else m

/-- One iteration of the loop body of `chunk_conversation`
(`sessions.py:177-193`).  State is `(chunks, current_chunk, current_size)`.
First, if adding the message would exceed the budget and the current chunk is
non-empty, the current chunk is closed; second, an oversized message is
truncated and its counted size set to the budget; finally the message is
appended to the current chunk. -/
def chunkStep (maxChars : Nat) (st : List (List Msg) × List Msg × Nat)
    (msg : Msg) : List (List Msg) × List Msg × Nat :=
  match st with
  | (chunks, cur, size) =>
    let msgSize := msg.text.length
    let st1 :=
      if maxChars < size + msgSize ∧ cur ≠ [] then
        (chunks ++ [cur], ([] : List Msg), 0)
      else (chunks, cur, size)
    match st1 with
    | (chunks1, cur1, size1) =>
      let m2 := truncMsg maxChars msg
      let msgSize2 := if maxChars < msgSize then maxChars else msgSize
      (chunks1, cur1 ++ [m2], size1 + msgSize2)

/-- Total character length of the turns of a chunk. -/
def chunkLen (c : List Msg) : Nat := (c.map (fun m => m.text.length)).sum

/-- The epilogue of `chunk_conversation` (`sessions.py:195-196`): append the
final non-empty chunk. -/
def finalizeChunks (st : List (List Msg) × List Msg × Nat) : List (List Msg) :=
  match st with
  | (chunks, cur, _) => if cur = [] then chunks else chunks ++ [cur]

/-- The function `chunk_conversation(messages, max_chars=20000)`
(`sessions.py:169-198`): split a conversation into chunks under a character
budget. -/
def chunk_conversation (messages : List Msg) (maxChars : Nat) :
    List (List Msg) :=
  finalizeChunks (messages.foldl (chunkStep maxChars) ([], [], 0))

/-- Specification shape: a turn the chunker truncated — the image of some
oversized original turn. -/
def TruncShape (B : Nat) (m : Msg) : Prop :=
  ∃ orig : Msg, B < orig.text.length ∧ m = truncMsg B orig

/-- Specification shape of a produced chunk: either its total length is
within the budget, or it is a truncated oversized turn placed first (alone
at its accumulation step), of length exactly the budget plus the suffix
marker, followed only by zero-length turns. -/
def ChunkOK (B : Nat) (c : List Msg) : Prop :=
  chunkLen c ≤ B ∨
    ∃ m rest, c = m :: rest ∧ TruncShape B m
      ∧ m.text.length = B + truncSuffix.length
      ∧ ∀ m' ∈ rest, m'.text.length = 0

/-- Loop invariant of the chunker: the running size is consistent with the
current chunk, and the current chunk is within budget or a truncated turn
followed by zero-length turns. -/
def GoodCur (B : Nat) (cur : List Msg) (size : Nat) : Prop :=
  (cur = [] ∧ size = 0) ∨
    (cur ≠ [] ∧ size ≤ B ∧
      (chunkLen cur = size ∨
        (size = B ∧ ∃ m rest, cur = m :: rest ∧ TruncShape B m
          ∧ m.text.length = B + truncSuffix.length
          ∧ ∀ m' ∈ rest, m'.text.length = 0)))

/-! ## Classification response parsing (`sessions.py`, `summarize_and_tag_chunk`) -/

/-- The marker introducing the priority line of an oracle response. -/
def priorityMarker : Str := "PRIORITY:".toList

/-- The marker introducing the summary block of an oracle response. -/
def summaryMarker : Str := "SUMMARY:".toList

/-- Python `line.replace("PRIORITY:", "")`: delete every (non-overlapping)
occurrence of the priority marker. -/
def removeMarker : Str → Str
  | [] => []
  | c :: rest =>
    if priorityMarker.isPrefixOf (c :: rest) then removeMarker (rest.drop 8)
    else c :: removeMarker rest
termination_by s => s.length
decreasing_by
  · simp only [List.length_drop, List.length_cons]
    omega
  · simp

/-- State of the line-scanning loop of `summarize_and_tag_chunk`
(`sessions.py:271-281`). -/
structure ParseSt where
  priority_line : Str
  summary_lines : List Str
  in_summary : Bool
deriving DecidableEq

/-- One iteration of the line-scanning loop (`sessions.py:275-281`). -/
def parseStep (st : ParseSt) (line : Str) : ParseSt :=
  if priorityMarker.isPrefixOf line then
    { st with priority_line := pyStrip (removeMarker line) }
  else if summaryMarker.isPrefixOf line then
    { st with in_summary := true }
  else if st.in_summary then
    { st with summary_lines := st.summary_lines ++ [line] }
  else st

/-- Scan the (stripped) oracle output line by line, recording the last
priority line and the lines following the summary marker. -/
def parseOutput (output : Str) : ParseSt :=
  (output.splitOn '\n').foldl parseStep ⟨"UNCLEAR".toList, [], false⟩

/-- The ordered tag vocabulary of `summarize_and_tag_chunk`
(`sessions.py:286-300`). -/
def tagVocab : List Str :=
  ["P0", "P1", "P2", "TOOLING", "META", "FEATURE", "BUGFIX", "RESEARCH",
   "OFF-PRIORITY", "OFF PRIORITY", "OFFPRIORITY", "OFF", "OTHER"].map
    String.toList

/-- The canonical tag that every `OFF`-containing variant collapses to. -/
def offCanonical : Str := "OFF-PRIORITY".toList

/-- Specification-side well-ordering of a tag vocabulary: no entry is
followed by a strictly longer entry extending it, so the first match of a
first-match scan is also a longest match. -/
def noLaterExtB : List Str → Bool
  | [] => true
  | p :: rest =>
    rest.all (fun q => decide (p <+: q → q.length ≤ p.length))
      && noLaterExtB rest

/-- Tag extraction (`sessions.py:283-307`): take the first vocabulary entry
that prefixes the upper-cased priority line; normalize any entry containing
`OFF` to `OFF-PRIORITY`; the rest of the line, stripped of `": -"`
separators, becomes the label.  No match leaves `UNCLEAR` with the raw line
as label. -/
def matchTag (priority_line : Str) : Str × Str :=
  match tagVocab.find? (fun p => p.isPrefixOf (pyUpper priority_line)) with
  | some p =>
    ((if decide ("OFF".toList <:+: p) then offCanonical else p),
     stripChars ": -".toList (priority_line.drop p.length))
  | none => ("UNCLEAR".toList, priority_line)

/-- Result dict of `summarize_and_tag_chunk` (`sessions.py:309-315`). -/
structure TagResult where
  priority : Str
  priority_name : Str
  summary : Str
  user_chars : Nat
  user_turns : Nat
deriving DecidableEq

/-- The role string `"user"`. -/
def userRole : Str := "user".toList

/-- The function `summarize_and_tag_chunk(chunk, project, priorities)`
(`sessions.py:210-323`).  The subprocess call to the oracle is a parameter:
`.ok stdout` is a completed call (any exit status) whose stdout is parsed,
`.error e` is any raised exception (process error, timeout), answered by the
`except` block.  The project and priorities only shape the prompt, which the
oracle parameter already abstracts. -/
def summarize_and_tag_chunk (chunk : List Msg) (_project _priorities : Str)
    (oracle : Except Str Str) : TagResult :=
  let user_chars :=
    ((chunk.filter (fun m => decide (m.role = userRole))).map
      (fun m => m.text.length)).sum
  let user_turns := (chunk.filter (fun m => decide (m.role = userRole))).length
  match oracle with
  | .ok stdout =>
    let st := parseOutput (pyStrip stdout)
    let tag := matchTag st.priority_line
    { priority := tag.1, priority_name := tag.2,
      summary := pyStrip (List.intercalate ['\n'] st.summary_lines),
      user_chars := user_chars, user_turns := user_turns }
  | .error e =>
    { priority := "UNCLEAR".toList,
      priority_name := "(failed: ".toList ++ e ++ ")".toList,
      summary := "(summarization failed)".toList,
      user_chars := user_chars, user_turns := user_turns }

/-! ## Label consolidation (`daily_report.py`, `consolidate_priority_names`) -/

/-- Round half to even, Python's `round` on exact values. -/
def roundHalfEven (q : ℚ) : ℤ :=
  let n := ⌊q⌋
  let r := q - n
  if r < 1/2 then n
  else if 1/2 < r then n + 1
  else if n % 2 = 0 then n else n + 1

/-- Python `round(q, 1)`: round to one decimal place. -/
def pyRound1 (q : ℚ) : ℚ := (roundHalfEven (10 * q) : ℚ) / 10

/-- The percentage computation shared by `consolidate_priority_names`
(`daily_report.py:99-101`) and `generate_report` (`daily_report.py:399-402`):
`round(100 * turns / total_turns, 1) if total_turns > 0 else 0`. -/
def pctOf (turns total_turns : Nat) : ℚ :=
  if 0 < total_turns then pyRound1 ((100 * turns : ℚ) / (total_turns : ℚ))
  else 0

/-- One entry of a label breakdown: `{"name": ..., "turns": ..., "pct": ...}`. -/
structure Item where
  name : Str
  turns : Nat
  pct : ℚ
deriving DecidableEq, Inhabited

/-- One group of the oracle's parsed JSON grouping response:
`{"name": ..., "items": [...]}` with Python (signed) integer indices. -/
structure OGroup where
  name : Str
  items : List Int
deriving DecidableEq, Inhabited

/-- Python `breakdown[i]` with a signed index: negative indices address from
the end.  Only evaluated on indices `-len ≤ i < len` (anything lower raises
`IndexError`, which the embedding models as a separate fallback branch). -/
def pyIntIdx (l : List Item) (i : Int) : Item :=
  if 0 ≤ i then l.getD i.toNat default
  else l.getD ((l.length : Int) + i).toNat default

/-- Sum of the turn counts of a breakdown. -/
def itemSum (l : List Item) : Nat := (l.map (fun b => b.turns)).sum

/-- The accumulated `seen_indices` of `consolidate_priority_names`
(`daily_report.py:89-94`): every referenced index below `len(breakdown)`
(the set is modelled as the accumulation list; only membership is used). -/
def seenOf (breakdown : List Item) (groups : List OGroup) : List Int :=
  groups.foldl
    (fun s g => s ++ g.items.filter (fun i =>
      decide (i < (breakdown.length : Int)))) []

/-- One consolidated entry of `consolidate_priority_names`
(`daily_report.py:91-103`): the group's name with the turns summed locally
over its in-range indices, and a recomputed percentage. -/
def groupItem (breakdown : List Item) (total_turns : Nat) (g : OGroup) :
    Item :=
  let turns := ((g.items.filter (fun i =>
    decide (i < (breakdown.length : Int)))).map
      (fun i => (pyIntIdx breakdown i).turns)).sum
  { name := g.name, turns := turns, pct := pctOf turns total_turns }

/-- The items the oracle never referenced, appended unchanged
(`daily_report.py:105-108`). -/
def carriedOf (breakdown : List Item) (groups : List OGroup) : List Item :=
  (breakdown.enum.filter
    (fun e => decide ((e.1 : Int) ∉ seenOf breakdown groups))).map Prod.snd

/-- The function `consolidate_priority_names(breakdown, total_turns)`
(`daily_report.py:29-124`).  The oracle parameter abstracts the subprocess
call together with the code-fence stripping and `json.loads`
(`daily_report.py:60-86`): `.ok groups` is a successfully parsed grouping
response, `.error ()` is any other outcome (raised exception, empty output,
unparseable JSON, a group without an `"items"` key), all of which return the
input unchanged.  A group index below `-len(breakdown)` raises `IndexError`
inside the `try` block, so it too falls back to the unchanged input; an index
`≥ len(breakdown)` is silently skipped by the `i < len(breakdown)` guard; a
negative index `≥ -len(breakdown)` silently wraps around.  The final sort is
Python's stable descending sort on turns. -/
def consolidate_priority_names (breakdown : List Item) (total_turns : Nat)
    (oracle : Except Unit (List OGroup)) : List Item :=
  if breakdown.length ≤ 5 then breakdown
  else
    match oracle with
    | .error _ => breakdown
    | .ok groups =>
      if groups.any (fun g => g.items.any (fun i =>
          decide (i < (breakdown.length : Int) ∧ i + breakdown.length < 0)))
      then breakdown
      else
        List.insertionSort (fun a b => b.turns < a.turns)
          (groups.map (groupItem breakdown total_turns)
            ++ carriedOf breakdown groups)

/-! ## Project-summary consolidation (`daily_report.py`, `consolidate_with_opus`) -/

/-- One per-project entry: `{"project": ..., "chars": ..., "summaries": [...]}`. -/
structure Proj where
  project : Str
  chars : Nat
  summaries : List Str
deriving DecidableEq, Inhabited

/-- The placeholder summary produced by `process_session` for sessions with
no content. -/
def noContent : Str := "(no content)".toList

/-- The raw-summaries text `"\n\n".join(proj["summaries"])`. -/
def rawSummaries (proj : Proj) : Str :=
  List.intercalate "\n\n".toList proj.summaries

/-- The per-project body of the loop of `consolidate_with_opus`
(`daily_report.py:138-203`): a project whose joined summaries are blank or
the `"(no content)"` placeholder passes through; otherwise the oracle is
consulted and, on success, the project's summaries are replaced by the
stripped oracle output; a raised exception keeps the project unchanged.  The
git-log and TODO context only shape the prompt, which the oracle parameter
abstracts. -/
def opusStep (oracle : Proj → Except Str Str) (proj : Proj) : Proj :=
  if pyStrip (rawSummaries proj) = [] ∨ rawSummaries proj = noContent then proj
  else
    match oracle proj with
    | .ok out =>
      { project := proj.project, chars := proj.chars,
        summaries := [pyStrip out] }
    | .error _ => proj

/-- The function `consolidate_with_opus(projects, priorities, ...)`
(`daily_report.py:127-210`): consolidate the top 10 projects, pass the rest
through (`consolidated.extend(projects[10:])`). -/
def consolidate_with_opus (projects : List Proj)
    (oracle : Proj → Except Str Str) : List Proj :=
  (projects.take 10).map (opusStep oracle) ++ projects.drop 10

/-! ## Report aggregation (`daily_report.py`, `generate_report`) -/

/-- One chunk result as consumed by the aggregation loop of
`generate_report` (`daily_report.py:379-397`): the fields of the dict
produced by `summarize_and_tag_chunk` plus the representative hour added by
`process_session`. -/
structure ChunkRes where
  priority : Str
  priority_name : Str
  user_chars : Nat
  user_turns : Nat
  hour : Option Nat
deriving DecidableEq, Inhabited

/-- One session result as consumed by `generate_report`: the `"project"` and
`"chunks"` fields of the dict returned by `process_session`. -/
structure SessionRes where
  project : Str
  chunks : List ChunkRes
deriving DecidableEq, Inhabited

/-- A Python counter dict as an association list in insertion order.
`bump m k v` is `m[k] = m.get(k, 0) + v`. -/
def bump : List (Str × Nat) → Str → Nat → List (Str × Nat)
  | [], k, v => [(k, v)]
  | (k', t) :: rest, k, v =>
    if k' = k then (k', t + v) :: rest else (k', t) :: bump rest k v

/-- Sum of the values of a counter dict. -/
def sumVals (m : List (Str × Nat)) : Nat := (m.map Prod.snd).sum

/-- The aggregation state of `generate_report` (`daily_report.py:370-377`). -/
structure AggState where
  priority_chars : List (Str × Nat)
  priority_turns : List (Str × Nat)
  priority_chunks : List (Str × Nat)
  priority_name_turns : List (Str × Nat)
  total_chars : Nat
  total_turns : Nat
  hourly : Nat → List (Str × Nat)

/-- The empty aggregation state (`hourly_priority_turns` starts as an empty
counter for every hour). -/
def initAgg : AggState := ⟨[], [], [], [], 0, 0, fun _ => []⟩

/-- The per-chunk body of the aggregation loop of `generate_report`
(`daily_report.py:379-397`). -/
def stepChunk (st : AggState) (c : ChunkRes) : AggState :=
  let p := c.priority
  let name := p ++ ": ".toList ++ c.priority_name
  { priority_chars := bump st.priority_chars p c.user_chars
    priority_turns := bump st.priority_turns p c.user_turns
    priority_chunks := bump st.priority_chunks p 1
    priority_name_turns := bump st.priority_name_turns name c.user_turns
    total_chars := st.total_chars + c.user_chars
    total_turns := st.total_turns + c.user_turns
    hourly := match c.hour with
      | some h => fun h' =>
          if h' = h then bump (st.hourly h) p c.user_turns else st.hourly h'
      | none => st.hourly }

/-- The aggregation of `generate_report` over all session results:
`for r in results: for chunk in r.get("chunks", []): ...`. -/
def aggregate (results : List SessionRes) : AggState :=
  results.foldl (fun st r => r.chunks.foldl stepChunk st) initAgg

/-- The `priority_pct` computation of `generate_report`
(`daily_report.py:399-402`). -/
def priority_pct (st : AggState) : List (Str × ℚ) :=
  st.priority_turns.map (fun e => (e.1, pctOf e.2 st.total_turns))

/-! ## Session scanning (`sessions.py`, `get_sessions`) -/

/-- The metadata returned by a successful `stat` call. -/
structure FStat where
  size : Nat
  mtime : Int
deriving DecidableEq

deriving instance DecidableEq for Except

/-- One file found by `projects_dir.rglob("*.jsonl")`.  `stat` is the result
of `jsonl_file.stat()`: `.error ()` is a raised `OSError`.  `userTurns` is
the value `count_user_turns` computes from the file's content (the only use
the scan makes of the content). -/
structure FileEnt where
  path : Str
  stat : Except Unit FStat
  userTurns : Nat
deriving DecidableEq

/-- One entry of the list `get_sessions` returns
(`sessions.py:144-148`). -/
structure SessEntry where
  path : Str
  project : Str
  size_kb : Nat
  mtime : Option Int
deriving DecidableEq

/-- The `since`-window test of the scan loop (`sessions.py:133-136`): with
`since` given, a file whose mtime is before it is skipped. -/
def beforeSince (since : Option Int) (mtime : Int) : Bool :=
  match since with
  | some s => decide (mtime < s)
  | none => false

/-- The scan loop of `get_sessions` (`sessions.py:124-152`).  A path
containing `"subagents"` is skipped; a `stat` failure is an uncaught
exception, which aborts the whole scan (there is no `try` in the loop);
files below the size threshold, outside the `since` window, or below the
turn threshold are skipped; survivors are appended in scan order. -/
def scanGo (projectName : Str → Str) (min_turns min_size : Nat)
    (since : Option Int) : List FileEnt → List SessEntry →
    Except Unit (List SessEntry)
  | [], acc => .ok acc
  | f :: fs, acc =>
    if "subagents".toList <:+: f.path then
      scanGo projectName min_turns min_size since fs acc
    else
      match f.stat with
      | .error e => .error e
      | .ok st =>
        if st.size < min_size then
          scanGo projectName min_turns min_size since fs acc
        else if beforeSince since st.mtime then
          scanGo projectName min_turns min_size since fs acc
        else if f.userTurns < min_turns then
          scanGo projectName min_turns min_size since fs acc
        else
          scanGo projectName min_turns min_size since fs
            (acc ++ [({ path := f.path, project := projectName f.path,
                        size_kb := st.size / 1024,
                        mtime := if since.isSome then some st.mtime
                                 else none } : SessEntry)])

/-- The function `get_sessions(min_turns=3, min_size=5000, since=None)`
(`sessions.py:110-157`).  The configured sessions directory's discovered
files are the `files` parameter; `projectName` is
`project_name_from_path` (whose output depends on the ambient home
directory).  When `since` is given the surviving entries are sorted by
mtime, newest first (Python's stable sort with `reverse=True`). -/
def get_sessions (files : List FileEnt) (projectName : Str → Str)
    (min_turns min_size : Nat) (since : Option Int) :
    Except Unit (List SessEntry) :=
  (scanGo projectName min_turns min_size since files []).map (fun l =>
    if since.isSome then
      List.insertionSort (fun a b => b.mtime.getD 0 < a.mtime.getD 0) l
    else l)

/-! ## Message extraction (`sessions.py`, `extract_messages`) -/

/-- The parse of the `"timestamp"` field of a record: `good t` is a
timestamp `datetime.fromisoformat` accepts (abstracted to its value on a
time axis), `bad` is a present but unparseable string, whose `ValueError` is
caught by the per-line handler. -/
inductive TsVal
  | bad
  | good (t : Int)
deriving DecidableEq

/-- One element of a `message.content` list: a `{"type": "text", "text": s}`
part, or any other part (non-dict, or non-`text` type), which is ignored. -/
inductive PartV
  | textPart (s : Str)
  | otherPart
deriving DecidableEq

/-- The `message.content` payload: a string, a list of parts, or anything
else (which yields empty text).  A record with no `"message"` key defaults
to `{}`, i.e. behaves as `str ""`. -/
inductive ContentV
  | str (s : Str)
  | parts (ps : List PartV)
  | other
deriving DecidableEq

/-- The function `_parse_message_content(msg)` (`sessions.py:21-32`). -/
def parseContent : ContentV → Str
  | .str s => s
  | .parts ps =>
    List.intercalate ['\n'] (ps.filterMap (fun p =>
      match p with
      | .textPart s => some s
      | .otherPart => none))
  | .other => []

/-- One successfully JSON-parsed line of a session file.  `timestamp` is
`none` when the field is absent or falsy; `message` is `none` when the
`"message"` value is not a dict. -/
structure RecV where
  timestamp : Option TsVal
  type : Option Str
  message : Option ContentV
deriving DecidableEq

/-- One line of a session file: `malformed` raises `json.JSONDecodeError`
and is skipped. -/
inductive LineV
  | malformed
  | record (r : RecV)
deriving DecidableEq

/-- One extracted turn: the dict `{"role": ..., "text": ...}` with the
optional `"timestamp"` key. -/
structure Turn where
  role : Str
  text : Str
  timestamp : Option Int
deriving DecidableEq

/-- The per-line body of `extract_messages` (`sessions.py:48-81`), returning
the appended entry if the line survives every filter. -/
def processLine (with_timestamps : Bool) : LineV → Option Turn
  | .malformed => none
  | .record r =>
    let tsGate : Option (Option Int) :=
      if with_timestamps then
        match r.timestamp with
        | none => none
        | some .bad => none
        | some (.good t) => some (some t)
      else some none
    match tsGate with
    | none => none
    | some ts =>
      if r.type = some userRole ∨ r.type = some "assistant".toList then
        match r.message with
        | none => none
        | some content =>
          let text := parseContent content
          if pyStrip text = [] then none
          else if r.type = some userRole ∧
              ("<shell-maker".toList.isPrefixOf text ∨
                (pyStrip text).length ≤ 10) then none
          else some { role := r.type.getD [], text := pyStrip text,
                      timestamp := ts }
      else none

/-- The function `extract_messages(session_path, with_timestamps=False)`
(`sessions.py:35-83`): `none` is a missing file (`FileNotFoundError` returns
`[]`); otherwise the file's lines are filtered into turns. -/
def extract_messages (file : Option (List LineV)) (with_timestamps : Bool) :
    List Turn :=
  match file with
  | none => []
  | some lines => lines.filterMap (processLine with_timestamps)

/-! ## Shared lemmas -/

theorem prefixOf_iff {l₁ l₂ : Str} : l₁.isPrefixOf l₂ = true ↔ l₁ <+: l₂ :=
  List.isPrefixOf_iff_prefix

theorem sum_filter_user (chunk : List Msg) :
    ((chunk.filter (fun m => decide (m.role = userRole))).map
        (fun m => m.text.length)).sum
      = (chunk.map (fun m => if m.role = userRole then m.text.length else 0)).sum := by
  induction chunk with
  | nil => rfl
  | cons m ms ih =>
    by_cases h : m.role = userRole <;>
      simp [List.filter_cons, h, ih]

theorem sumVals_bump (m : List (Str × Nat)) (k : Str) (v : Nat) :
    sumVals (bump m k v) = sumVals m + v := by
  induction m with
  | nil => simp [bump, sumVals]
  | cons e rest ih =>
    obtain ⟨k', t⟩ := e
    by_cases h : k' = k <;> simp [bump, h, sumVals] at ih ⊢ <;> omega

theorem foldChunks_turns (chunks : List ChunkRes) (st : AggState) :
    sumVals ((chunks.foldl stepChunk st).priority_turns)
        = sumVals st.priority_turns + (chunks.map (fun c => c.user_turns)).sum
      ∧ (chunks.foldl stepChunk st).total_turns
        = st.total_turns + (chunks.map (fun c => c.user_turns)).sum := by
  induction chunks generalizing st with
  | nil => simp
  | cons c cs ih =>
    simp only [List.foldl_cons, List.map_cons, List.sum_cons]
    obtain ⟨ih₁, ih₂⟩ := ih (stepChunk st c)
    refine ⟨?_, ?_⟩
    · rw [ih₁]; simp [stepChunk, sumVals_bump]; omega
    · rw [ih₂]; simp [stepChunk]; omega

theorem foldResults_turns (results : List SessionRes) (st : AggState) :
    sumVals ((results.foldl (fun st r => r.chunks.foldl stepChunk st)
          st).priority_turns)
        = sumVals st.priority_turns
          + (results.map (fun r => (r.chunks.map (fun c => c.user_turns)).sum)).sum
      ∧ (results.foldl (fun st r => r.chunks.foldl stepChunk st) st).total_turns
        = st.total_turns
          + (results.map (fun r => (r.chunks.map (fun c => c.user_turns)).sum)).sum := by
  induction results generalizing st with
  | nil => simp
  | cons r rs ih =>
    simp only [List.foldl_cons, List.map_cons, List.sum_cons]
    obtain ⟨ih₁, ih₂⟩ := ih (r.chunks.foldl stepChunk st)
    obtain ⟨h₁, h₂⟩ := foldChunks_turns r.chunks st
    exact ⟨by rw [ih₁, h₁]; omega, by rw [ih₂, h₂]; omega⟩

/-! ## Claim theorems -/

/-- C3: the aggregation of `generate_report` conserves user turns: the
category turn totals sum exactly to the sum of all chunk results'
`user_turns`, and that sum is the report's `total_user_turns`; no chunk is
dropped (the equality holds for every input, in particular when every
chunk's category is `UNCLEAR`). -/
theorem c3_aggregation_conservation (results : List SessionRes) :
    sumVals (aggregate results).priority_turns
        = (results.map (fun r => (r.chunks.map (fun c => c.user_turns)).sum)).sum
      ∧ (aggregate results).total_turns
        = (results.map (fun r => (r.chunks.map (fun c => c.user_turns)).sum)).sum := by
  obtain ⟨h₁, h₂⟩ := foldResults_turns results initAgg
  constructor
  · rw [aggregate, h₁]; simp [initAgg, sumVals]
  · rw [aggregate, h₂]; simp [initAgg]

/-- C4 counterexample: on a failing oracle call `summarize_and_tag_chunk`
returns the placeholder synopsis `"(summarization failed)"`, not an empty
synopsis as the claim states. -/
theorem c4_cex :
    (summarize_and_tag_chunk [] [] [] (.error "boom".toList)).summary ≠ [] := by
  decide

/-- C4 (amended): any failure of the classification call yields tag
`UNCLEAR`, a label embedding the failure reason, and the fixed placeholder
synopsis `"(summarization failed)"` (not an empty synopsis); the counts are
the locally computed user character and turn counts, and the call never
raises past this boundary (the embedding is a total function of the oracle
outcome). -/
theorem c4_failure_path (chunk : List Msg) (pj pr e : Str) :
    summarize_and_tag_chunk chunk pj pr (.error e) =
      { priority := "UNCLEAR".toList,
        priority_name := "(failed: ".toList ++ e ++ ")".toList,
        summary := "(summarization failed)".toList,
        user_chars :=
          (chunk.map (fun m => if m.role = userRole then m.text.length else 0)).sum,
        user_turns := chunk.countP (fun m => decide (m.role = userRole)) } := by
  simp [summarize_and_tag_chunk, sum_filter_user, List.countP_eq_length_filter]

/-- C6 counterexample: `consolidate_with_opus` has no `≤ 5` pass-through:
on a single-project list with real summaries it consults the oracle and
returns a changed list. -/
theorem c6_cex :
    consolidate_with_opus [⟨"timecard".toList, 3, ["fixed the chunker".toList]⟩]
        (fun _ => .ok "- did things".toList)
      ≠ [⟨"timecard".toList, 3, ["fixed the chunker".toList]⟩] := by
  decide

/-- C6 (amended): `consolidate_priority_names` on a breakdown of at most 5
items is the identity for every oracle behavior (the oracle is never
consulted); `consolidate_with_opus` has no size-based skip: it is the
identity precisely when every top-10 project has blank or placeholder
summaries or a failing oracle call, and projects beyond the first 10 always
pass through unchanged. -/
theorem c6_passthrough :
    (∀ (bd : List Item) (total : Nat) (oracle : Except Unit (List OGroup)),
        bd.length ≤ 5 → consolidate_priority_names bd total oracle = bd)
    ∧ (∀ (ps : List Proj) (oracle : Proj → Except Str Str),
        (∀ p ∈ ps.take 10,
          pyStrip (rawSummaries p) = [] ∨ rawSummaries p = noContent
            ∨ (oracle p).isOk = false) →
        consolidate_with_opus ps oracle = ps)
    ∧ (∀ (ps : List Proj) (oracle : Proj → Except Str Str),
        (consolidate_with_opus ps oracle).drop ((ps.take 10).length)
          = ps.drop 10) := by
  refine ⟨?_, ?_, ?_⟩
  · intro bd total oracle h
    simp [consolidate_priority_names, h]
  · intro ps oracle h
    have hcong : ∀ p ∈ ps.take 10, opusStep oracle p = id p := by
      intro p hp
      rcases h p hp with hblank | hnc | herr
      · simp [opusStep, hblank]
      · simp [opusStep, hnc]
      · cases hor : oracle p with
        | ok out => rw [hor] at herr; simp [Except.isOk, Except.toBool] at herr
        | error e => simp [opusStep, hor]
    have hmap : (ps.take 10).map (opusStep oracle) = ps.take 10 := by
      rw [List.map_congr_left hcong, List.map_id]
    rw [consolidate_with_opus, hmap, List.take_append_drop]
  · intro ps oracle
    rw [consolidate_with_opus]
    rw [show ((ps.take 10).length = ((ps.take 10).map (opusStep oracle)).length) by
      simp]
    exact List.drop_left _ _

/-- C6 witness: the amended pass-through facts at concrete inputs. -/
theorem c6_witness :
    consolidate_priority_names [⟨"P0: A".toList, 3, 0⟩] 10 (.error ())
        = [⟨"P0: A".toList, 3, 0⟩]
      ∧ consolidate_with_opus [⟨"p".toList, 1, []⟩] (fun _ => .ok "x".toList)
        = [⟨"p".toList, 1, []⟩] :=
  ⟨c6_passthrough.1 [⟨"P0: A".toList, 3, 0⟩] 10 (.error ()) (by decide),
   c6_passthrough.2.1 [⟨"p".toList, 1, []⟩] (fun _ => .ok "x".toList)
     (by decide)⟩

/-- C8: for every oracle behavior (success with any output, or any
exception), `summarize_and_tag_chunk` returns `user_chars` equal to the sum
of text lengths over the chunk's user-role turns and `user_turns` equal to
the count of the chunk's user-role turns; the quantification over the oracle
shows the counts are computed locally, identically on the success and
failure paths. -/
theorem c8_counts_local (chunk : List Msg) (pj pr : Str)
    (oracle : Except Str Str) :
    (summarize_and_tag_chunk chunk pj pr oracle).user_chars
        = (chunk.map (fun m => if m.role = userRole then m.text.length else 0)).sum
      ∧ (summarize_and_tag_chunk chunk pj pr oracle).user_turns
        = chunk.countP (fun m => decide (m.role = userRole)) := by
  cases oracle <;>
    constructor <;>
      simp [summarize_and_tag_chunk, sum_filter_user,
        List.countP_eq_length_filter]

theorem snd_mem_of_mem_enumFrom {α : Type} :
    ∀ {l : List α} {n : Nat} {e : Nat × α}, e ∈ List.enumFrom n l → e.2 ∈ l := by
  intro l
  induction l with
  | nil => intro n e he; simp at he
  | cons a t ih =>
    intro n e he
    rw [List.enumFrom_cons] at he
    rcases List.mem_cons.mp he with rfl | h
    · exact List.mem_cons_self _ _
    · exact List.mem_cons_of_mem _ (ih h)

theorem mem_enumFrom_get {α : Type} :
    ∀ (l : List α) (n j : Nat) (h : j < l.length),
      (n + j, l.get ⟨j, h⟩) ∈ List.enumFrom n l := by
  intro l
  induction l with
  | nil => intro n j h; simp at h
  | cons a t ih =>
    intro n j h
    rw [List.enumFrom_cons]
    cases j with
    | zero => simp
    | succ j' =>
      refine List.mem_cons_of_mem _ ?_
      have h' : j' < t.length := by simpa using h
      have hmem := ih (n + 1) j' h'
      have heq : (n + 1) + j' = n + (j' + 1) := by omega
      rw [heq] at hmem
      exact hmem

theorem scanGo_all_ok (pn : Str → Str) (mt ms : Nat) (since : Option Int) :
    ∀ (files : List FileEnt) (acc : List SessEntry),
      (∀ f ∈ files, ¬ ("subagents".toList <:+: f.path) → f.stat.isOk = true) →
      ∃ l, scanGo pn mt ms since files acc = .ok l := by
  intro files
  induction files with
  | nil => intro acc _; exact ⟨acc, rfl⟩
  | cons f fs ih =>
    intro acc h
    have htail : ∀ g ∈ fs, ¬ ("subagents".toList <:+: g.path) →
        g.stat.isOk = true :=
      fun g hg => h g (List.mem_cons_of_mem _ hg)
    by_cases hs : ("subagents".toList <:+: f.path)
    · rw [scanGo, if_pos hs]
      exact ih acc htail
    · have hok := h f (List.mem_cons_self _ _) hs
      rw [scanGo, if_neg hs]
      split
      · rename_i e he
        rw [he] at hok
        simp [Except.isOk, Except.toBool] at hok
      · split
        · exact ih _ htail
        · split
          · exact ih _ htail
          · split
            · exact ih _ htail
            · exact ih _ htail

theorem scanGo_stat_error (pn : Str → Str) (mt ms : Nat) (since : Option Int) :
    ∀ (files : List FileEnt) (acc : List SessEntry),
      (∃ f ∈ files, ¬ ("subagents".toList <:+: f.path) ∧ f.stat = .error ()) →
      scanGo pn mt ms since files acc = .error () := by
  intro files
  induction files with
  | nil => intro acc h; simp at h
  | cons f fs ih =>
    intro acc h
    obtain ⟨g, hg, hgs, hge⟩ := h
    by_cases hs : ("subagents".toList <:+: f.path)
    · have hgfs : g ∈ fs := by
        rcases List.mem_cons.mp hg with rfl | hgt
        · exact absurd hs hgs
        · exact hgt
      rw [scanGo, if_pos hs]
      exact ih acc ⟨g, hgfs, hgs, hge⟩
    · rw [scanGo, if_neg hs]
      split
      · rename_i e he
        cases e
        rfl
      · rename_i st hstat
        have hgfs : g ∈ fs := by
          rcases List.mem_cons.mp hg with rfl | hgt
          · rw [hstat] at hge; exact absurd hge (by simp)
          · exact hgt
        split
        · exact ih _ ⟨g, hgfs, hgs, hge⟩
        · split
          · exact ih _ ⟨g, hgfs, hgs, hge⟩
          · split
            · exact ih _ ⟨g, hgfs, hgs, hge⟩
            · exact ih _ ⟨g, hgfs, hgs, hge⟩

set_option maxRecDepth 4000 in
/-- C5 counterexample: a single `stat` failure aborts the whole scan of
`get_sessions`, even though another eligible file is present; there is no
per-file recovery in the loop. -/
theorem c5_cex :
    get_sessions
        [⟨"alpha/a.jsonl".toList, .ok ⟨6000, 100⟩, 5⟩,
         ⟨"alpha/b.jsonl".toList, .error (), 9⟩]
        (fun p => p) 3 5000 none
      = .error () := by
  decide

/-- C5 (amended): `get_sessions` is a pure function of the discovered files
(no filesystem side effects in the embedding), and when every non-skipped
file's `stat` succeeds the scan completes; but a `stat` failure on any
single non-skipped file propagates as an exception that aborts the whole
scan instead of excluding that file. -/
theorem c5_stat_error_aborts :
    (∀ (files : List FileEnt) (pn : Str → Str) (mt ms : Nat)
        (since : Option Int),
        (∀ f ∈ files, ¬ ("subagents".toList <:+: f.path) →
          f.stat.isOk = true) →
        ∃ l, get_sessions files pn mt ms since = .ok l)
    ∧ (∀ (files : List FileEnt) (pn : Str → Str) (mt ms : Nat)
        (since : Option Int),
        (∃ f ∈ files, ¬ ("subagents".toList <:+: f.path) ∧
          f.stat = .error ()) →
        get_sessions files pn mt ms since = .error ()) := by
  constructor
  · intro files pn mt ms since h
    obtain ⟨l, hl⟩ := scanGo_all_ok pn mt ms since files [] h
    exact ⟨_, by rw [get_sessions, hl]; rfl⟩
  · intro files pn mt ms since h
    rw [get_sessions, scanGo_stat_error pn mt ms since files [] h]
    rfl

/-- C5 witness: the amended behavior at concrete inputs: an all-`stat`-ok
scan completes, and a scan containing one `stat` failure aborts. -/
theorem c5_witness :
    (∃ l, get_sessions [⟨"alpha/a.jsonl".toList, .ok ⟨6000, 100⟩, 5⟩]
        (fun p => p) 3 5000 none = .ok l)
    ∧ get_sessions
        [⟨"beta/a.jsonl".toList, .ok ⟨6000, 100⟩, 5⟩,
         ⟨"beta/b.jsonl".toList, .error (), 9⟩]
        (fun p => p) 3 5000 none
      = .error () :=
  ⟨c5_stat_error_aborts.1 _ (fun p => p) 3 5000 none (by decide),
   c5_stat_error_aborts.2 _ (fun p => p) 3 5000 none
     ⟨⟨"beta/b.jsonl".toList, .error (), 9⟩, by decide⟩⟩

/-- C9: percentage computation is total: with zero total user turns every
category's percentage is 0 (no division fault is possible, division is
guarded); with positive total each percentage is
`round(100 * turns / total, 1)` recomputed from the current totals; and the
group entries `consolidate_priority_names` creates with a zero total also
carry percentage 0. -/
theorem c9_percentage_safety :
    (∀ results : List SessionRes,
        (aggregate results).total_turns = 0 →
        ∀ e ∈ priority_pct (aggregate results), e.2 = 0)
    ∧ (∀ results : List SessionRes,
        0 < (aggregate results).total_turns →
        ∀ e ∈ priority_pct (aggregate results),
          ∃ t, (e.1, t) ∈ (aggregate results).priority_turns ∧
            e.2 = pyRound1 ((100 * t : ℚ) /
              ((aggregate results).total_turns : ℚ)))
    ∧ (∀ (bd : List Item) (oracle : Except Unit (List OGroup)) (item : Item),
        item ∈ consolidate_priority_names bd 0 oracle → item ∉ bd →
        item.pct = 0) := by
  refine ⟨?_, ?_, ?_⟩
  · intro results h0 e he
    obtain ⟨a, _, rfl⟩ := List.mem_map.mp he
    simp [pctOf, h0]
  · intro results hpos e he
    obtain ⟨a, ha, rfl⟩ := List.mem_map.mp he
    exact ⟨a.2, ha, by simp [pctOf, hpos]⟩
  · intro bd oracle item hmem hnotin
    simp only [consolidate_priority_names] at hmem
    split at hmem
    · exact absurd hmem hnotin
    · cases oracle with
      | error e => exact absurd hmem hnotin
      | ok groups =>
        split at hmem
        · exact absurd hmem hnotin
        · split at hmem
          · exact absurd hmem hnotin
          · rw [(List.perm_insertionSort _ _).mem_iff] at hmem
            rcases List.mem_append.mp hmem with hc | hcar
            · obtain ⟨g, _, rfl⟩ := List.mem_map.mp hc
              simp [groupItem, pctOf]
            · obtain ⟨e, he, rfl⟩ := List.mem_map.mp hcar
              have : e.2 ∈ bd :=
                snd_mem_of_mem_enumFrom (List.mem_of_mem_filter he)
              exact absurd this hnotin

/-- C9 witness: the zero-total case at a concrete input: one chunk with
zero user turns gives total 0 and a percentage of 0 for its category. -/
theorem c9_witness :
    (aggregate [⟨"p".toList, [⟨"P0".toList, "x".toList, 7, 0, none⟩]⟩]).total_turns
        = 0
      ∧ ∀ e ∈ priority_pct
          (aggregate [⟨"p".toList, [⟨"P0".toList, "x".toList, 7, 0, none⟩]⟩]),
          e.2 = 0 :=
  ⟨by decide, c9_percentage_safety.1 _ (by decide)⟩

theorem noLaterExtB_extract {p : Str} {rest : List Str}
    (h : noLaterExtB (p :: rest) = true) :
    (∀ q ∈ rest, p <+: q → q.length ≤ p.length) ∧ noLaterExtB rest = true := by
  simp only [noLaterExtB, Bool.and_eq_true, List.all_eq_true,
    decide_eq_true_eq] at h
  exact h

theorem find?_first_is_longest (u : Str) :
    ∀ (l : List Str), noLaterExtB l = true →
      ∀ p₀, l.find? (fun p => p.isPrefixOf u) = some p₀ →
        p₀ <+: u ∧ ∀ q ∈ l, q <+: u → q.length ≤ p₀.length := by
  intro l
  induction l with
  | nil => intro _ p₀ hfind; simp at hfind
  | cons a t ih =>
    intro hord p₀ hfind
    obtain ⟨ha_ord, ht_ord⟩ := noLaterExtB_extract hord
    cases ha : a.isPrefixOf u with
    | true =>
      rw [@List.find?_cons_of_pos Str (fun p => p.isPrefixOf u) a t ha]
        at hfind
      injection hfind with heq
      subst heq
      refine ⟨prefixOf_iff.mp ha, ?_⟩
      intro q hq hqu
      rcases List.mem_cons.mp hq with rfl | hqt
      · exact le_refl _
      · rcases List.prefix_or_prefix_of_prefix (prefixOf_iff.mp ha) hqu with
          haq | hqa
        · exact ha_ord q hqt haq
        · exact hqa.length_le
    | false =>
      rw [@List.find?_cons_of_neg Str (fun p => p.isPrefixOf u) a t
        (by simp [ha])] at hfind
      obtain ⟨h₁, h₂⟩ := ih ht_ord p₀ hfind
      refine ⟨h₁, ?_⟩
      intro q hq hqu
      rcases List.mem_cons.mp hq with rfl | hqt
      · exact absurd (prefixOf_iff.mpr hqu) (by simp [ha])
      · exact h₂ q hqt hqu

theorem tagVocab_offFact :
    ∀ p ∈ tagVocab, (("OFF".toList <:+: p) ↔
      p ∈ ["OFF-PRIORITY".toList, "OFF PRIORITY".toList,
           "OFFPRIORITY".toList, "OFF".toList]) := by
  decide

/-- C7: when some vocabulary entry prefixes the (upper-cased) priority line,
the entry the extraction loop of `summarize_and_tag_chunk` picks is a
longest-prefix match of the line against the tag vocabulary
(case-insensitively); the four matched variants containing `OFF` are exactly
the ones normalized to the canonical `OFF-PRIORITY`; the text after the
matched prefix, stripped of `": -"` separators, becomes the label; and the
tag and label `summarize_and_tag_chunk` returns on any successful oracle
call are exactly those extracted from its parsed priority line. -/
theorem c7_tag_longest_match :
    (∀ (line q : Str), q ∈ tagVocab → q <+: pyUpper line →
      ∃ p, p ∈ tagVocab ∧ p <+: pyUpper line
        ∧ (∀ r ∈ tagVocab, r <+: pyUpper line → r.length ≤ p.length)
        ∧ (("OFF".toList <:+: p) →
            matchTag line = (offCanonical,
              stripChars ": -".toList (line.drop p.length)))
        ∧ (¬ ("OFF".toList <:+: p) →
            matchTag line = (p, stripChars ": -".toList (line.drop p.length)))
        ∧ (("OFF".toList <:+: p) ↔
            p ∈ ["OFF-PRIORITY".toList, "OFF PRIORITY".toList,
                 "OFFPRIORITY".toList, "OFF".toList]))
    ∧ (∀ (chunk : List Msg) (pj pr s : Str),
        (summarize_and_tag_chunk chunk pj pr (.ok s)).priority
            = (matchTag (parseOutput (pyStrip s)).priority_line).1
          ∧ (summarize_and_tag_chunk chunk pj pr (.ok s)).priority_name
            = (matchTag (parseOutput (pyStrip s)).priority_line).2) := by
  constructor
  · intro line q hq hqu
    cases hfind : tagVocab.find? (fun p => p.isPrefixOf (pyUpper line)) with
    | none =>
      exact absurd (prefixOf_iff.mpr hqu)
        (by simpa using List.find?_eq_none.mp hfind q hq)
    | some p₀ =>
      obtain ⟨hp₀u, hmax⟩ :=
        find?_first_is_longest (pyUpper line) tagVocab (by decide) p₀ hfind
      refine ⟨p₀, List.mem_of_find?_eq_some hfind, hp₀u, hmax, ?_, ?_,
        tagVocab_offFact p₀ (List.mem_of_find?_eq_some hfind)⟩
      · intro hoff
        simp only [matchTag, hfind]
        rw [if_pos (decide_eq_true hoff)]
      · intro hoff
        simp only [matchTag, hfind]
        rw [if_neg (by simpa using hoff)]
  · intro chunk pj pr s
    exact ⟨rfl, rfl⟩

/-- C7 witness: on the line `"off priority: guitar"` the matched entry is a
longest-prefix match (it is `OFF PRIORITY`, not the shorter `OFF`), and the
extraction normalizes it to `OFF-PRIORITY` with label `"guitar"`. -/
theorem c7_witness :
    ∃ p, p ∈ tagVocab ∧ p <+: pyUpper "off priority: guitar".toList
      ∧ (∀ r ∈ tagVocab, r <+: pyUpper "off priority: guitar".toList →
          r.length ≤ p.length)
      ∧ (("OFF".toList <:+: p) →
          matchTag "off priority: guitar".toList = (offCanonical,
            stripChars ": -".toList ("off priority: guitar".toList.drop
              p.length)))
      ∧ (¬ ("OFF".toList <:+: p) →
          matchTag "off priority: guitar".toList
            = (p, stripChars ": -".toList ("off priority: guitar".toList.drop
                p.length)))
      ∧ (("OFF".toList <:+: p) ↔
          p ∈ ["OFF-PRIORITY".toList, "OFF PRIORITY".toList,
               "OFFPRIORITY".toList, "OFF".toList]) :=
  c7_tag_longest_match.1 "off priority: guitar".toList "OFF".toList
    (by decide) (by decide)

theorem head?_dropWhile_not {α : Type} (p : α → Bool) :
    ∀ (l : List α) {c : α}, (l.dropWhile p).head? = some c → p c = false := by
  intro l
  induction l with
  | nil => intro c h; simp at h
  | cons a t ih =>
    intro c h
    rw [List.dropWhile_cons] at h
    by_cases hpa : p a = true
    · rw [if_pos hpa] at h; exact ih h
    · rw [if_neg hpa] at h
      simp only [List.head?_cons, Option.some.injEq] at h
      subst h
      simpa using hpa

theorem rstrip_head {m : Str} {c : Char} (h : (rstrip m).head? = some c) :
    m.head? = some c := by
  have hpre : rstrip m <+: m := by
    have h1 : (m.reverse.dropWhile pySpace) <:+ m.reverse :=
      List.dropWhile_suffix _
    have h2 := List.reverse_prefix.mpr h1
    simpa [rstrip] using h2
  obtain ⟨t, ht⟩ := hpre
  rw [← ht, List.head?_append, h]
  rfl

theorem pyStrip_head {s : Str} {c : Char} (h : (pyStrip s).head? = some c) :
    pySpace c = false :=
  head?_dropWhile_not pySpace s (rstrip_head h)

theorem pyStrip_last {s : Str} {c : Char} (h : (pyStrip s).getLast? = some c) :
    pySpace c = false := by
  have h' : ((lstrip s).reverse.dropWhile pySpace).reverse.getLast?
      = some c := h
  rw [List.getLast?_reverse] at h'
  exact head?_dropWhile_not pySpace (lstrip s).reverse h'

/-- C10: every turn `extract_messages` returns has role `user` or
`assistant`; its text is non-empty and carries no leading or trailing
whitespace; every user-role turn's text is strictly longer than 10
characters; and with `with_timestamps` every returned turn carries a
successfully parsed timestamp. -/
theorem c10_extract_invariants (file : Option (List LineV)) (wt : Bool)
    (t : Turn) (h : t ∈ extract_messages file wt) :
    (t.role = userRole ∨ t.role = "assistant".toList)
    ∧ t.text ≠ []
    ∧ (∀ c, t.text.head? = some c → pySpace c = false)
    ∧ (∀ c, t.text.getLast? = some c → pySpace c = false)
    ∧ (t.role = userRole → 10 < t.text.length)
    ∧ (wt = true → ∃ ts, t.timestamp = some ts) := by
  cases file with
  | none => simp [extract_messages] at h
  | some lines =>
    simp only [extract_messages] at h
    obtain ⟨line, _, hpl⟩ := List.mem_filterMap.mp h
    cases line with
    | malformed => simp [processLine] at hpl
    | record r =>
      simp only [processLine] at hpl
      split at hpl
      · exact absurd hpl (by simp)
      · rename_i ts hts
        split at hpl
        · rename_i hty
          split at hpl
          · exact absurd hpl (by simp)
          · rename_i content hmsg
            split at hpl
            · exact absurd hpl (by simp)
            · rename_i hne
              split at hpl
              · exact absurd hpl (by simp)
              · rename_i hflt
                injection hpl with hpl
                subst hpl
                refine ⟨?_, hne, ?_, ?_, ?_, ?_⟩
                · rcases hty with hty | hty <;> simp [hty]
                · intro c hc; exact pyStrip_head hc
                · intro c hc; exact pyStrip_last hc
                · intro hrole
                  have hu : r.type = some userRole := by
                    rcases hty with hty | hty
                    · exact hty
                    · rw [hty] at hrole
                      simp only [Option.getD_some] at hrole
                      exact absurd hrole (by decide)
                  have : ¬ ("<shell-maker".toList.isPrefixOf
                        (parseContent content) = true
                      ∨ (pyStrip (parseContent content)).length ≤ 10) :=
                    fun hc => hflt ⟨hu, hc⟩
                  push_neg at this
                  simpa using this.2
                · intro hwt
                  subst hwt
                  rw [if_pos rfl] at hts
                  split at hts
                  · exact absurd hts (by simp)
                  · exact absurd hts (by simp)
                  · rename_i t' _
                    injection hts with hts
                    exact ⟨t', by simp [← hts]⟩
        · exact absurd hpl (by simp)

set_option maxRecDepth 4000 in
/-- C10 witness: a concrete session line yields a turn satisfying every
invariant of the claim. -/
theorem c10_witness :
    ∃ t : Turn,
      t ∈ extract_messages
          (some [LineV.record
            ⟨some (.good 5), some userRole,
             some (.str "  hello world plenty long  ".toList)⟩]) true
      ∧ ((t.role = userRole ∨ t.role = "assistant".toList)
          ∧ t.text ≠ []
          ∧ (∀ c, t.text.head? = some c → pySpace c = false)
          ∧ (∀ c, t.text.getLast? = some c → pySpace c = false)
          ∧ (t.role = userRole → 10 < t.text.length)
          ∧ (true = true → ∃ ts, t.timestamp = some ts)) := by
  have hmem : (⟨userRole, "hello world plenty long".toList, some 5⟩ : Turn) ∈
      extract_messages
        (some [LineV.record
          ⟨some (.good 5), some userRole,
           some (.str "  hello world plenty long  ".toList)⟩]) true := by
    decide
  exact ⟨_, hmem, c10_extract_invariants _ true _ hmem⟩

theorem truncMsg_len {B : Nat} {m : Msg} (h : B < m.text.length) :
    (truncMsg B m).text.length = B + truncSuffix.length := by
  simp only [truncMsg, if_pos h, List.length_append, List.length_take]
  omega

theorem chunkStep_eq (B : Nat) (chunks : List (List Msg)) (cur : List Msg)
    (size : Nat) (msg : Msg) :
    chunkStep B (chunks, cur, size) msg =
      if B < size + msg.text.length ∧ cur ≠ [] then
        (chunks ++ [cur], [truncMsg B msg],
          if B < msg.text.length then B else msg.text.length)
      else
        (chunks, cur ++ [truncMsg B msg],
          size + if B < msg.text.length then B else msg.text.length) := by
  by_cases h1 : B < size + msg.text.length ∧ cur ≠ [] <;>
    by_cases h2 : B < msg.text.length <;>
      simp [chunkStep, truncMsg, h1, h2]

theorem goodCur_chunkOK {B : Nat} {cur : List Msg} {size : Nat}
    (hcur : GoodCur B cur size) (hne : cur ≠ []) : ChunkOK B cur := by
  rcases hcur with ⟨rfl, _⟩ | ⟨_, hle, hd⟩
  · exact absurd rfl hne
  · rcases hd with hlen | ⟨_, m, rest, h1, h2, h3, h4⟩
    · exact Or.inl (hlen ▸ hle)
    · exact Or.inr ⟨m, rest, h1, h2, h3, h4⟩

theorem chunker_inv (B : Nat) :
    ∀ (msgs : List Msg) (chunks : List (List Msg)) (cur : List Msg)
      (size : Nat),
      GoodCur B cur size →
      (∀ c ∈ chunks, c ≠ [] ∧ ChunkOK B c) →
      (∀ c ∈ finalizeChunks (msgs.foldl (chunkStep B) (chunks, cur, size)),
          c ≠ [] ∧ ChunkOK B c)
      ∧ (finalizeChunks (msgs.foldl (chunkStep B) (chunks, cur, size))).flatten
          = chunks.flatten ++ cur ++ msgs.map (truncMsg B) := by
  intro msgs
  induction msgs with
  | nil =>
    intro chunks cur size hcur hch
    by_cases he : cur = []
    · subst he
      exact ⟨by simpa [finalizeChunks] using hch, by simp [finalizeChunks]⟩
    · constructor
      · intro c hc
        simp only [List.foldl_nil, finalizeChunks] at hc
        rw [if_neg he] at hc
        rcases List.mem_append.mp hc with h | h
        · exact hch c h
        · have hccur : c = cur := by simpa using h
          subst hccur
          exact ⟨he, goodCur_chunkOK hcur he⟩
      · simp only [List.foldl_nil, finalizeChunks]
        rw [if_neg he]
        simp [List.flatten_append]
  | cons msg rest ih =>
    intro chunks cur size hcur hch
    rw [List.foldl_cons, chunkStep_eq]
    by_cases h1 : B < size + msg.text.length ∧ cur ≠ []
    · rw [if_pos h1]
      have hcp : ∀ c ∈ chunks ++ [cur], c ≠ [] ∧ ChunkOK B c := by
        intro c hc
        rcases List.mem_append.mp hc with h | h
        · exact hch c h
        · have hccur : c = cur := by simpa using h
          subst hccur
          exact ⟨h1.2, goodCur_chunkOK hcur h1.2⟩
      by_cases h2 : B < msg.text.length
      · rw [if_pos h2]
        have hgc : GoodCur B [truncMsg B msg] B :=
          Or.inr ⟨by simp, le_refl _,
            Or.inr ⟨rfl, truncMsg B msg, [], rfl, ⟨msg, h2, rfl⟩,
              truncMsg_len h2, by simp⟩⟩
        obtain ⟨ha, hb⟩ := ih (chunks ++ [cur]) [truncMsg B msg] B hgc hcp
        refine ⟨ha, ?_⟩
        rw [hb]
        simp [List.flatten_append]
      · rw [if_neg h2]
        have htm : truncMsg B msg = msg := by simp [truncMsg, h2]
        have hgc : GoodCur B [truncMsg B msg] msg.text.length :=
          Or.inr ⟨by simp, by omega,
            Or.inl (by simp [chunkLen, htm])⟩
        obtain ⟨ha, hb⟩ :=
          ih (chunks ++ [cur]) [truncMsg B msg] msg.text.length hgc hcp
        refine ⟨ha, ?_⟩
        rw [hb]
        simp [List.flatten_append, htm]
    · rw [if_neg h1]
      by_cases he : cur = []
      · have hz : size = 0 := by
          rcases hcur with ⟨_, hz⟩ | ⟨hne, _⟩
          · exact hz
          · exact absurd he hne
        subst hz
        subst he
        by_cases h2 : B < msg.text.length
        · rw [if_pos h2]
          have hgc : GoodCur B ([] ++ [truncMsg B msg]) (0 + B) :=
            Or.inr ⟨by simp, by omega,
              Or.inr ⟨by omega, truncMsg B msg, [], by simp, ⟨msg, h2, rfl⟩,
                truncMsg_len h2, by simp⟩⟩
          obtain ⟨ha, hb⟩ := ih chunks ([] ++ [truncMsg B msg]) (0 + B) hgc hch
          refine ⟨ha, ?_⟩
          rw [hb]
          simp
        · rw [if_neg h2]
          have htm : truncMsg B msg = msg := by simp [truncMsg, h2]
          have hgc : GoodCur B ([] ++ [truncMsg B msg]) (0 + msg.text.length) :=
            Or.inr ⟨by simp, by omega,
              Or.inl (by simp [chunkLen, htm])⟩
          obtain ⟨ha, hb⟩ :=
            ih chunks ([] ++ [truncMsg B msg]) (0 + msg.text.length) hgc hch
          refine ⟨ha, ?_⟩
          rw [hb]
          simp [htm]
      · have hle : size + msg.text.length ≤ B := by
          rcases not_and_or.mp h1 with h | h
          · omega
          · exact absurd he h
        have h2 : ¬ B < msg.text.length := by omega
        rw [if_neg h2]
        have hgc : GoodCur B (cur ++ [truncMsg B msg])
            (size + msg.text.length) := by
          have htm : truncMsg B msg = msg := by simp [truncMsg, h2]
          rcases hcur with ⟨rfl, _⟩ | ⟨hne, hszle, hd⟩
          · exact absurd rfl he
          · refine Or.inr ⟨by simp, hle, ?_⟩
            rcases hd with hlen | ⟨hsz, m, rest0, hshape, htr, hml, hall⟩
            · exact Or.inl (by simp [chunkLen, htm, List.sum_append] at hlen ⊢; omega)
            · have hzero : msg.text.length = 0 := by omega
              refine Or.inr ⟨by omega, m, rest0 ++ [truncMsg B msg],
                by rw [hshape]; simp, htr, hml, ?_⟩
              intro m' hm'
              rcases List.mem_append.mp hm' with h | h
              · exact hall m' h
              · have : m' = truncMsg B msg := by simpa using h
                subst this
                simp [htm, hzero]
        obtain ⟨ha, hb⟩ :=
          ih chunks (cur ++ [truncMsg B msg]) (size + msg.text.length) hgc hch
        have htm : truncMsg B msg = msg := by simp [truncMsg, h2]
        refine ⟨ha, ?_⟩
        rw [hb]
        simp [htm]

/-- C2: every chunk `chunk_conversation` produces is non-empty and either
fits the character budget or consists of a single truncated oversized turn
— cut to exactly `B` characters plus the truncation suffix, placed first
into a fresh chunk (alone at its accumulation step), followed only by
zero-length turns — and the concatenation of all chunks is exactly the turn
sequence with each oversized turn truncated in place: boundaries fall only
between turns and order is preserved. -/
theorem c2_chunk_budget (messages : List Msg) (B : Nat) :
    (chunk_conversation messages B).flatten = messages.map (truncMsg B)
    ∧ ∀ c ∈ chunk_conversation messages B, c ≠ [] ∧ ChunkOK B c := by
  obtain ⟨h₁, h₂⟩ :=
    chunker_inv B messages [] [] 0 (Or.inl ⟨rfl, rfl⟩) (by simp)
  exact ⟨by simpa [chunk_conversation] using h₂,
    by simpa [chunk_conversation] using h₁⟩

/-- C2 witness: a single 13-character turn with budget 10 becomes one chunk
holding the turn truncated to 10 characters plus the suffix marker. -/
theorem c2_witness :
    (chunk_conversation [⟨userRole, "0123456789ABC".toList⟩] 10).flatten
        = [(⟨userRole, "0123456789ABC".toList⟩ : Msg)].map (truncMsg 10)
      ∧ ([(⟨userRole, "0123456789".toList ++ truncSuffix⟩ : Msg)] ≠ []
          ∧ ChunkOK 10 [⟨userRole, "0123456789".toList ++ truncSuffix⟩]) :=
  ⟨(c2_chunk_budget [⟨userRole, "0123456789ABC".toList⟩] 10).1,
   (c2_chunk_budget [⟨userRole, "0123456789ABC".toList⟩] 10).2
     [⟨userRole, "0123456789".toList ++ truncSuffix⟩] (by decide)⟩

theorem itemSum_eq_range (l : List Item) :
    itemSum l = ∑ j ∈ Finset.range l.length, (l.getD j default).turns := by
  induction l with
  | nil => simp [itemSum]
  | cons a t ih =>
    simp only [itemSum, List.map_cons, List.sum_cons, List.length_cons]
    rw [Finset.sum_range_succ']
    simp only [List.getD_cons_succ, List.getD_cons_zero]
    rw [← itemSum, ih]
    omega

theorem enumFrom_filter_sum (p : Nat → Bool) :
    ∀ (l : List Item) (n : Nat),
      (((List.enumFrom n l).filter (fun e => p e.1)).map
          (fun e => e.2.turns)).sum
        = ∑ j ∈ Finset.range l.length,
            if p (n + j) = true then (l.getD j default).turns else 0 := by
  intro l
  induction l with
  | nil => intro n; simp
  | cons a t ih =>
    intro n
    rw [List.enumFrom_cons, List.filter_cons, List.length_cons,
      Finset.sum_range_succ']
    simp only [List.getD_cons_succ, List.getD_cons_zero, Nat.add_zero]
    have hcong : ∀ j ∈ Finset.range t.length,
        (if p (n + (j + 1)) = true then (t.getD j default).turns else 0)
          = (if p ((n + 1) + j) = true then (t.getD j default).turns
             else 0) := by
      intro j _
      rw [show n + (j + 1) = (n + 1) + j by omega]
    rw [Finset.sum_congr rfl hcong, ← ih (n + 1)]
    by_cases hp : p n = true
    · rw [if_pos hp, if_pos hp]
      simp only [List.map_cons, List.sum_cons]
      omega
    · rw [if_neg hp, if_neg hp]
      omega

theorem foldl_append_flatMap {α β : Type} (f : α → List β) :
    ∀ (l : List α) (init : List β),
      l.foldl (fun s g => s ++ f g) init = init ++ l.flatMap f := by
  intro l
  induction l with
  | nil => intro init; simp
  | cons a t ih =>
    intro init
    simp only [List.foldl_cons, List.flatMap_cons, ih, List.append_assoc]

theorem flatMap_congr {α β : Type} (f g : α → List β) :
    ∀ (l : List α), (∀ a ∈ l, f a = g a) → l.flatMap f = l.flatMap g := by
  intro l
  induction l with
  | nil => intro _; rfl
  | cons a t ih =>
    intro h
    rw [List.flatMap_cons, List.flatMap_cons, h a (List.mem_cons_self _ _),
      ih (fun b hb => h b (List.mem_cons_of_mem _ hb))]

theorem sum_over_groups (f : Int → Nat) :
    ∀ (groups : List OGroup),
      ((groups.map (fun g => (g.items.map f).sum)).sum)
        = ((groups.flatMap (fun g => g.items)).map f).sum := by
  intro groups
  induction groups with
  | nil => rfl
  | cons g gs ih => simp [List.flatMap_cons, ih]

/-- C1 counterexample: an oracle grouping that repeats index 0 double-counts
that item's turns: the consolidated totals sum to 7 while the input sums
to 6, so conservation fails for adversarial responses. -/
theorem c1_cex :
    itemSum (consolidate_priority_names
        (List.replicate 6 (⟨[], 1, 0⟩ : Item)) 6 (.ok [⟨[], [0, 0]⟩]))
      ≠ itemSum (List.replicate 6 (⟨[], 1, 0⟩ : Item)) := by
  decide

/-- C1 (amended): conservation holds for every grouping response whose
indices are valid — each in `[0, len)` and no index referenced twice within
or across groups: the post-consolidation turns sum exactly to the
pre-consolidation sum, and every unreferenced item is carried through
unchanged into the output (referenced items are absorbed into exactly the
group that lists them, whose turns are the sum over its indices).  Every
failure path (call failure, empty output, unparseable JSON — and an index
below `-len`, which raises `IndexError` inside the `try`) returns the input
unchanged, which also conserves the sum.  Repeated indices (see the
counterexample) or negative in-range indices, however, double-count. -/
theorem c1_conservation :
    (∀ (bd : List Item) (total : Nat) (groups : List OGroup),
        (∀ g ∈ groups, ∀ i ∈ g.items, 0 ≤ i ∧ i < (bd.length : Int)) →
        (groups.flatMap (fun g => g.items)).Nodup →
        itemSum (consolidate_priority_names bd total (.ok groups))
            = itemSum bd
          ∧ ∀ j : Fin bd.length,
              ((j : Nat) : Int) ∉ groups.flatMap (fun g => g.items) →
              bd.get j ∈ consolidate_priority_names bd total (.ok groups))
    ∧ (∀ (bd : List Item) (total : Nat),
        consolidate_priority_names bd total (.error ()) = bd)
    ∧ (∀ (bd : List Item) (total : Nat) (groups : List OGroup),
        5 < bd.length →
        (∃ g ∈ groups, ∃ i ∈ g.items,
          i < (bd.length : Int) ∧ i + bd.length < 0) →
        consolidate_priority_names bd total (.ok groups) = bd) := by
  refine ⟨?_, ?_, ?_⟩
  · intro bd total groups hval hnd
    by_cases hlen : bd.length ≤ 5
    · refine ⟨by simp [consolidate_priority_names, hlen], ?_⟩
      intro j _
      simp only [consolidate_priority_names, if_pos hlen]
      exact List.get_mem bd j.1 j.2
    · -- the guard is false: every index is nonnegative
      have hguard : (groups.any (fun g => g.items.any (fun i =>
          decide (i < (bd.length : Int) ∧ i + bd.length < 0)))) = false := by
        simp only [List.any_eq_false, List.any_eq_true, decide_eq_true_eq,
          not_exists, not_and, not_lt]
        intro g hg i hi _
        have := hval g hg i hi
        omega
      have hcons : consolidate_priority_names bd total (.ok groups)
          = List.insertionSort (fun a b => b.turns < a.turns)
              (groups.map (groupItem bd total) ++ carriedOf bd groups) := by
        simp only [consolidate_priority_names, if_neg hlen]
        rw [if_neg (by rw [hguard]; simp)]
      -- shared abbreviations
      have hfil : ∀ g ∈ groups,
          g.items.filter (fun i => decide (i < (bd.length : Int)))
            = g.items := by
        intro g hg
        rw [List.filter_eq_self]
        intro i hi
        simpa using (hval g hg i hi).2
      have hseen : seenOf bd groups = groups.flatMap (fun g => g.items) := by
        rw [seenOf, foldl_append_flatMap]
        rw [flatMap_congr _ _ groups hfil]
        rfl
      have hvalF : ∀ i ∈ groups.flatMap (fun g => g.items),
          0 ≤ i ∧ i < (bd.length : Int) := by
        intro i hi
        obtain ⟨g, hg, hig⟩ := List.mem_flatMap.mp hi
        exact hval g hg i hig
      -- the Nat image of the referenced indices
      have hndN : ((groups.flatMap (fun g => g.items)).map Int.toNat).Nodup :=
        hnd.map_on (fun x hx y hy hxy => by
          have hx' := (hvalF x hx).1
          have hy' := (hvalF y hy).1
          omega)
      have hmemN : ∀ j : Nat,
          ((j : Int) ∈ groups.flatMap (fun g => g.items)
            ↔ j ∈ (groups.flatMap (fun g => g.items)).map Int.toNat) := by
        intro j
        constructor
        · intro hj
          exact List.mem_map.mpr ⟨(j : Int), hj, by omega⟩
        · intro hj
          obtain ⟨i, hi, rfl⟩ := List.mem_map.mp hj
          have := (hvalF i hi).1
          rwa [Int.toNat_of_nonneg this]
      have hsubN : ∀ j ∈ (groups.flatMap (fun g => g.items)).map Int.toNat,
          j < bd.length := by
        intro j hj
        obtain ⟨i, hi, rfl⟩ := List.mem_map.mp hj
        have := hvalF i hi
        omega
      constructor
      · -- conservation of the turn sum
        rw [hcons]
        have hperm : itemSum (List.insertionSort (fun a b => b.turns < a.turns)
              (groups.map (groupItem bd total) ++ carriedOf bd groups))
            = itemSum (groups.map (groupItem bd total)
                ++ carriedOf bd groups) := by
          unfold itemSum
          exact ((List.perm_insertionSort _ _).map _).sum_eq
        rw [hperm]
        have hsplit : itemSum (groups.map (groupItem bd total)
              ++ carriedOf bd groups)
            = itemSum (groups.map (groupItem bd total))
              + itemSum (carriedOf bd groups) := by
          simp [itemSum]
        rw [hsplit]
        -- group side
        have hgroupsum : itemSum (groups.map (groupItem bd total))
            = ∑ j ∈ ((groups.flatMap (fun g => g.items)).map
                Int.toNat).toFinset, (bd.getD j default).turns := by
          have h1 : itemSum (groups.map (groupItem bd total))
              = ((groups.map (fun g =>
                  (g.items.map (fun i => (pyIntIdx bd i).turns)).sum)).sum) := by
            rw [itemSum, List.map_map]
            congr 1
            refine List.map_congr_left ?_
            intro g hg
            simp only [Function.comp_apply, groupItem]
            rw [hfil g hg]
          rw [h1, sum_over_groups]
          have h2 : (groups.flatMap (fun g => g.items)).map
                (fun i => (pyIntIdx bd i).turns)
              = ((groups.flatMap (fun g => g.items)).map Int.toNat).map
                  (fun j => (bd.getD j default).turns) := by
            rw [List.map_map]
            refine List.map_congr_left ?_
            intro i hi
            have h0 := (hvalF i hi).1
            simp only [Function.comp_apply, pyIntIdx, if_pos h0]
          rw [h2, List.sum_toFinset _ hndN]
        rw [hgroupsum]
        -- carried side
        have hcarr : itemSum (carriedOf bd groups)
            = ∑ j ∈ Finset.range bd.length,
                if ((j : Int) ∉ groups.flatMap (fun g => g.items))
                then (bd.getD j default).turns else 0 := by
          rw [itemSum, carriedOf, List.map_map, hseen]
          have := enumFrom_filter_sum
            (fun j => decide ((j : Int) ∉ groups.flatMap (fun g => g.items)))
            bd 0
          simp only [Nat.zero_add, decide_eq_true_eq] at this
          exact this
        rw [hcarr, itemSum_eq_range]
        -- assemble over `range bd.length`
        have hgf : (((groups.flatMap (fun g => g.items)).map
              Int.toNat).toFinset : Finset Nat)
            = (Finset.range bd.length).filter
                (fun j => j ∈ (groups.flatMap (fun g => g.items)).map
                  Int.toNat) := by
          ext j
          simp only [List.mem_toFinset, Finset.mem_filter, Finset.mem_range]
          exact ⟨fun h => ⟨hsubN j h, h⟩, fun h => h.2⟩
        rw [hgf, Finset.sum_filter]
        rw [← Finset.sum_add_distrib]
        refine Finset.sum_congr rfl ?_
        intro j _
        by_cases hj : (j : Int) ∈ groups.flatMap (fun g => g.items)
        · rw [if_pos ((hmemN j).mp hj), if_neg (by simpa using hj)]
          omega
        · rw [if_neg (fun hc => hj ((hmemN j).mpr hc)), if_pos hj]
          omega
      · -- unreferenced items are carried through unchanged
        intro j hj
        rw [hcons, (List.perm_insertionSort _ _).mem_iff]
        refine List.mem_append.mpr (Or.inr ?_)
        rw [carriedOf]
        refine List.mem_map.mpr ⟨((j : Nat), bd.get j), ?_, rfl⟩
        refine List.mem_filter.mpr ⟨?_, ?_⟩
        · have := mem_enumFrom_get bd 0 (j : Nat) j.2
          simpa [List.enum] using this
        · rw [hseen]
          simpa using hj
  · intro bd total
    by_cases hlen : bd.length ≤ 5 <;>
      simp [consolidate_priority_names, hlen]
  · intro bd total groups hlen hex
    have hany : (groups.any (fun g => g.items.any (fun i =>
        decide (i < (bd.length : Int) ∧ i + bd.length < 0)))) = true := by
      rw [List.any_eq_true]
      obtain ⟨g, hg, i, hi, hc⟩ := hex
      exact ⟨g, hg, List.any_eq_true.mpr ⟨i, hi, by simpa using hc⟩⟩
    simp only [consolidate_priority_names, if_neg (by omega : ¬ bd.length ≤ 5)]
    rw [if_pos hany]

/-- C1 witness: the spec's own scenario — six items totalling 200 turns,
grouped as `[0,1]`, `[2]`, `[3,4]` with index 5 omitted by the oracle: the
output sums to 200 and the omitted item appears unchanged. -/
theorem c1_witness :
    itemSum (consolidate_priority_names
        [⟨"P0: A".toList, 50, 0⟩, ⟨"P0: A2".toList, 30, 0⟩,
         ⟨"P1: B".toList, 40, 0⟩, ⟨"T: C".toList, 25, 0⟩,
         ⟨"T: C2".toList, 35, 0⟩, ⟨"OFF: D".toList, 20, 0⟩] 200
        (.ok [⟨"P0: A".toList, [0, 1]⟩, ⟨"P1: B".toList, [2]⟩,
              ⟨"T: C".toList, [3, 4]⟩]))
      = itemSum
        [⟨"P0: A".toList, 50, 0⟩, ⟨"P0: A2".toList, 30, 0⟩,
         ⟨"P1: B".toList, 40, 0⟩, ⟨"T: C".toList, 25, 0⟩,
         ⟨"T: C2".toList, 35, 0⟩, ⟨"OFF: D".toList, 20, 0⟩]
    ∧ (⟨"OFF: D".toList, 20, 0⟩ : Item) ∈
        consolidate_priority_names
          [⟨"P0: A".toList, 50, 0⟩, ⟨"P0: A2".toList, 30, 0⟩,
           ⟨"P1: B".toList, 40, 0⟩, ⟨"T: C".toList, 25, 0⟩,
           ⟨"T: C2".toList, 35, 0⟩, ⟨"OFF: D".toList, 20, 0⟩] 200
          (.ok [⟨"P0: A".toList, [0, 1]⟩, ⟨"P1: B".toList, [2]⟩,
                ⟨"T: C".toList, [3, 4]⟩]) := by
  have h := c1_conservation.1
    [⟨"P0: A".toList, 50, 0⟩, ⟨"P0: A2".toList, 30, 0⟩,
     ⟨"P1: B".toList, 40, 0⟩, ⟨"T: C".toList, 25, 0⟩,
     ⟨"T: C2".toList, 35, 0⟩, ⟨"OFF: D".toList, 20, 0⟩] 200
    [⟨"P0: A".toList, [0, 1]⟩, ⟨"P1: B".toList, [2]⟩,
     ⟨"T: C".toList, [3, 4]⟩] (by decide) (by decide)
  exact ⟨h.1, h.2 ⟨5, by decide⟩ (by decide)⟩

end AgentTimecard
